import Mathlib

/-!
Shallow embedding of `create_icons.py` from the PassMan repository.

The script draws, for each size in [16, 32, 48, 128], a lock glyph on a
size-by-size RGBA canvas: a blue background, a white rectangle for the lock
body, and 19 short white radial line segments approximating the shackle arc,
then saves each canvas as a PNG file and prints a progress line.

Numeric conventions of the embedding:
- Python `int(x)` truncates toward zero; it is embedded as `truncQ` on exact
  rationals (for the scale-derived quantities, where the float arithmetic of
  the script is exact at every point where truncation could be affected) and
  as `truncR` on reals (for the trigonometric offsets).
- Python `//` is floor division, embedded as `Int.fdiv`.
- The imaging library's line rasterization is external to the repository; it
  is a parameter `raster` of the canvas model, and theorems that need it
  constrain it only by the bounding-box property `GoodRaster` that any
  stroked-segment rasterizer satisfies.
-/

/-- An RGBA color with integer channels, as used by PIL for mode RGBA. -/
structure Color where
  r : ℕ
  g : ℕ
  b : ℕ
  a : ℕ
deriving DecidableEq

/-- The background color passed to `Image.new`: blue (59, 130, 246, 255). -/
def bgBlue : Color := ⟨59, 130, 246, 255⟩

/-- The fill color used for the lock body and the shackle: opaque white. -/
def whiteFill : Color := ⟨255, 255, 255, 255⟩

/-- Python `int()` truncation toward zero, on exact rationals. -/
def truncQ (q : ℚ) : ℤ := if 0 ≤ q then ⌊q⌋ else ⌈q⌉

/-- `scale = size / 24`, an exact (non-truncated) ratio. -/
def scaleQ (size : ℕ) : ℚ := (size : ℚ) / 24

/-- `lock_width = int(10 * scale)`. -/
def lockWidth (size : ℕ) : ℤ := truncQ (10 * scaleQ size)

/-- `lock_height = int(8 * scale)`. -/
def lockHeight (size : ℕ) : ℤ := truncQ (8 * scaleQ size)

/-- `lock_x = (size - lock_width) // 2` (Python floor division). -/
def lockX (size : ℕ) : ℤ := Int.fdiv ((size : ℤ) - lockWidth size) 2

/-- `lock_y = size // 2` (Python floor division). -/
def lockY (size : ℕ) : ℤ := Int.fdiv (size : ℤ) 2

/-- `shackle_center_x = size // 2`. -/
def shackleCenterX (size : ℕ) : ℤ := Int.fdiv (size : ℤ) 2

/-- `shackle_center_y = lock_y - int(2 * scale)`. -/
def shackleCenterY (size : ℕ) : ℤ := lockY size - truncQ (2 * scaleQ size)

/-- `shackle_radius = int(4 * scale)`. -/
def shackleRadius (size : ℕ) : ℤ := truncQ (4 * scaleQ size)

/-- The radius used for the inner endpoint of each shackle segment:
`shackle_radius - 2`. -/
def innerRadius (size : ℕ) : ℤ := shackleRadius size - 2

/-- The stroke width of each shackle segment: `max(1, int(scale))`. -/
def strokeW (size : ℕ) : ℤ := max 1 (truncQ (scaleQ size))

/-- On nonnegative rationals, truncation toward zero is the floor. -/
theorem truncQ_of_nonneg {q : ℚ} (h : 0 ≤ q) : truncQ q = ⌊q⌋ := by
  rw [truncQ, if_pos h]

/-- Truncating `k * (size / 24)` over the exact rationals is integer division
of `k * size` by 24. -/
theorem truncQ_natMul_scale (k size : ℕ) :
    truncQ ((k : ℚ) * scaleQ size) = (k : ℤ) * (size : ℤ) / 24 := by
  have hnn : (0 : ℚ) ≤ (k : ℚ) * scaleQ size := by
    unfold scaleQ
    positivity
  have hrw : (k : ℚ) * scaleQ size = (((k : ℤ) * (size : ℤ) : ℤ) : ℚ) / ((24 : ℕ) : ℚ) := by
    unfold scaleQ
    push_cast
    ring
  rw [truncQ_of_nonneg hnn, hrw, Rat.floor_intCast_div_natCast]
  norm_num

/-- Floor division agrees with Euclidean division on nonnegative operands. -/
theorem fdiv_eq_ediv_of_nonneg {a b : ℤ} (ha : 0 ≤ a) (hb : 0 ≤ b) :
    Int.fdiv a b = a / b := by
  lift a to ℕ using ha
  lift b to ℕ using hb
  rw [← Int.ofNat_fdiv, Int.ofNat_ediv]

theorem lockWidth_eq (size : ℕ) : lockWidth size = 10 * (size : ℤ) / 24 := by
  rw [lockWidth, show (10 : ℚ) = ((10 : ℕ) : ℚ) by norm_num, truncQ_natMul_scale]
  norm_num

theorem lockHeight_eq (size : ℕ) : lockHeight size = 8 * (size : ℤ) / 24 := by
  rw [lockHeight, show (8 : ℚ) = ((8 : ℕ) : ℚ) by norm_num, truncQ_natMul_scale]
  norm_num

theorem shackleRadius_eq (size : ℕ) : shackleRadius size = 4 * (size : ℤ) / 24 := by
  rw [shackleRadius, show (4 : ℚ) = ((4 : ℕ) : ℚ) by norm_num, truncQ_natMul_scale]
  norm_num

theorem truncQ_scale_eq (size : ℕ) : truncQ (scaleQ size) = (size : ℤ) / 24 := by
  have h := truncQ_natMul_scale 1 size
  simp only [Nat.cast_one, one_mul] at h
  exact h

theorem lockWidth_nonneg (size : ℕ) : 0 ≤ lockWidth size := by
  rw [lockWidth_eq]
  positivity

theorem lockWidth_le_size (size : ℕ) : lockWidth size ≤ (size : ℤ) := by
  rw [lockWidth_eq]
  omega

theorem lockHeight_nonneg (size : ℕ) : 0 ≤ lockHeight size := by
  rw [lockHeight_eq]
  positivity

theorem lockX_eq (size : ℕ) : lockX size = ((size : ℤ) - lockWidth size) / 2 := by
  rw [lockX, fdiv_eq_ediv_of_nonneg (by have := lockWidth_le_size size; omega) (by norm_num)]

theorem lockY_eq (size : ℕ) : lockY size = (size : ℤ) / 2 := by
  rw [lockY, fdiv_eq_ediv_of_nonneg (by positivity) (by norm_num)]

theorem shackleCenterX_eq (size : ℕ) : shackleCenterX size = (size : ℤ) / 2 := by
  rw [shackleCenterX, fdiv_eq_ediv_of_nonneg (by positivity) (by norm_num)]

/-- A canvas assigns a color to every integer pixel coordinate.  The script
only ever reads the square `[0, size) x [0, size)`; the imaging library clips
drawing outside it, which the total-function model renders harmless. -/
def Canvas : Type := ℤ → ℤ → Color

/-- `Image.new('RGBA', (size, size), color)`: a canvas entirely in `color`. -/
def newCanvas (color : Color) : Canvas := fun _ _ => color

/-- `draw.rectangle([x0, y0, x1, y1], fill)`: paints every pixel with
`x0 ≤ x ≤ x1` and `y0 ≤ y ≤ y1` (PIL rectangles include both corners). -/
def drawRectangle (x0 y0 x1 y1 : ℤ) (fill : Color) (c : Canvas) : Canvas :=
  fun x y => if x0 ≤ x ∧ x ≤ x1 ∧ y0 ≤ y ∧ y ≤ y1 then fill else c x y

/-- One white shackle stroke: endpoints and stroke width of a
`draw.line([x1, y1, x2, y2], fill, width)` call. -/
structure Segment where
  x1 : ℤ
  y1 : ℤ
  x2 : ℤ
  y2 : ℤ
  w : ℤ
deriving DecidableEq

/-- A line rasterizer decides which pixels a stroked segment covers.  PIL's
rasterizer is library code outside this repository, so the model is
parameterized over it. -/
def LineRaster : Type := Segment → ℤ → ℤ → Bool

/-- `draw.line(seg, fill, width)`: paints the pixels the rasterizer covers. -/
def drawLine (raster : LineRaster) (seg : Segment) (fill : Color) (c : Canvas) : Canvas :=
  fun x y => if raster seg x y then fill else c x y

/-- Any stroked-segment rasterizer covers only pixels inside the segment's
bounding box inflated by the stroke width (PIL's covers the pixels within
half the width of the segment, with no end caps). -/
def GoodRaster (raster : LineRaster) : Prop :=
  ∀ seg x y, raster seg x y = true →
    min seg.x1 seg.x2 - seg.w ≤ x ∧ x ≤ max seg.x1 seg.x2 + seg.w ∧
    min seg.y1 seg.y2 - seg.w ≤ y ∧ y ≤ max seg.y1 seg.y2 + seg.w

/-- Truncation toward zero on the reals, Python `int()`. -/
noncomputable def truncR (x : ℝ) : ℤ := if 0 ≤ x then ⌊x⌋ else ⌈x⌉

/-- `radians(angle)` for an angle given in degrees. -/
noncomputable def radiansOf (angle : ℕ) : ℝ := (angle : ℝ) * Real.pi / 180

/-- Python `range(start, stop, step)` for a positive step. -/
def pyRange (start stop step : ℕ) : List ℕ :=
  (List.range ((stop - start + step - 1) / step)).map (fun i => start + step * i)

/-- The shackle stroke drawn at one angle of the loop body: outer endpoint at
`shackle_radius`, inner endpoint at `shackle_radius - 2`, offsets truncated
toward zero, stroke width `max(1, int(scale))`. -/
noncomputable def segmentAt (size angle : ℕ) : Segment where
  x1 := shackleCenterX size + truncR ((shackleRadius size : ℝ) * Real.cos (radiansOf angle))
  y1 := shackleCenterY size + truncR ((shackleRadius size : ℝ) * Real.sin (radiansOf angle))
  x2 := shackleCenterX size + truncR ((innerRadius size : ℝ) * Real.cos (radiansOf angle))
  y2 := shackleCenterY size + truncR ((innerRadius size : ℝ) * Real.sin (radiansOf angle))
  w := strokeW size

/-- The strokes of the loop `for angle in range(180, 361, 10)`. -/
noncomputable def shackleSegments (size : ℕ) : List Segment :=
  (pyRange 180 361 10).map (segmentAt size)

/-- The fully drawn canvas of `create_icon`: blue background, white lock-body
rectangle, then the 19 white shackle strokes in loop order. -/
noncomputable def iconCanvas (raster : LineRaster) (size : ℕ) : Canvas :=
  (shackleSegments size).foldl (fun c seg => drawLine raster seg whiteFill c)
    (drawRectangle (lockX size) (lockY size) (lockX size + lockWidth size)
      (lockY size + lockHeight size) whiteFill (newCanvas bgBlue))

/-- The rectangle-argument validity check of the imaging library: the second
corner must not precede the first on either axis. -/
def rectangleOk (x0 y0 x1 y1 : ℤ) : Bool :=
  decide (x0 ≤ x1) && decide (y0 ≤ y1)

/-- `create_icon(size)` down to the fully drawn canvas, with the drawing
steps that can fail made explicit: an inverted rectangle is an error. -/
noncomputable def createIcon (raster : LineRaster) (size : ℕ) : Except String Canvas :=
  if rectangleOk (lockX size) (lockY size) (lockX size + lockWidth size)
      (lockY size + lockHeight size) then
    Except.ok (iconCanvas raster size)
  else
    Except.error "bad rectangle coordinates"

/-- The rectangle coordinates are always well ordered, so `create_icon`
always reaches the end of its drawing steps. -/
theorem createIcon_ok (raster : LineRaster) (size : ℕ) :
    createIcon raster size = Except.ok (iconCanvas raster size) := by
  have hw := lockWidth_nonneg size
  have hh := lockHeight_nonneg size
  rw [createIcon, if_pos]
  rw [rectangleOk]
  simp only [Bool.and_eq_true, decide_eq_true_eq]
  omega

/-- Painting white segment strokes preserves a pixel that is already white. -/
theorem foldl_drawLine_white (raster : LineRaster) (segs : List Segment) (c : Canvas)
    (x y : ℤ) (h : c x y = whiteFill) :
    (segs.foldl (fun acc seg => drawLine raster seg whiteFill acc) c) x y = whiteFill := by
  induction segs generalizing c with
  | nil => exact h
  | cons s t ih =>
    refine ih (drawLine raster s whiteFill c) ?_
    rw [drawLine]
    split
    · rfl
    · exact h

/-- A pixel covered by no stroke keeps its color through the segment loop. -/
theorem foldl_drawLine_untouched (raster : LineRaster) (segs : List Segment) (c : Canvas)
    (x y : ℤ) (h : ∀ seg ∈ segs, raster seg x y = false) :
    (segs.foldl (fun acc seg => drawLine raster seg whiteFill acc) c) x y = c x y := by
  induction segs generalizing c with
  | nil => rfl
  | cons s t ih =>
    have hs : raster s x y = false := h s (List.mem_cons_self s t)
    have ht : ∀ seg ∈ t, raster seg x y = false := fun seg hseg => h seg (List.mem_cons_of_mem s hseg)
    rw [List.foldl_cons, ih (drawLine raster s whiteFill c) ht, drawLine, hs]
    simp

/-- After the segment loop a pixel either keeps its color or is white. -/
theorem foldl_drawLine_cases (raster : LineRaster) (segs : List Segment) (c : Canvas)
    (x y : ℤ) :
    (segs.foldl (fun acc seg => drawLine raster seg whiteFill acc) c) x y = c x y ∨
    (segs.foldl (fun acc seg => drawLine raster seg whiteFill acc) c) x y = whiteFill := by
  induction segs generalizing c with
  | nil => exact Or.inl rfl
  | cons s t ih =>
    rcases ih (drawLine raster s whiteFill c) with h | h
    · rw [List.foldl_cons, h, drawLine]
      split
      · exact Or.inr rfl
      · exact Or.inl rfl
    · exact Or.inr (by rw [List.foldl_cons, h])

/-- A raster covering no pixel at all; it satisfies `GoodRaster` and is used
to instantiate raster-parametric theorems at a concrete input. -/
def noRaster : LineRaster := fun _ _ _ => false

theorem noRaster_good : GoodRaster noRaster := by
  intro seg x y h
  simp [noRaster] at h

theorem truncR_le_of_le {x : ℝ} {c : ℤ} (hc : 0 ≤ c) (h : x ≤ (c : ℝ)) : truncR x ≤ c := by
  rw [truncR]
  split
  · exact_mod_cast le_trans (Int.floor_le x) h
  · next h0 =>
    push_neg at h0
    have : (⌈x⌉ : ℤ) ≤ 0 := Int.ceil_le.mpr (by exact_mod_cast h0.le)
    omega

theorem le_truncR_of_le {x : ℝ} {c : ℤ} (hc : c ≤ 0) (h : (c : ℝ) ≤ x) : c ≤ truncR x := by
  rw [truncR]
  split
  · next h0 =>
    have : (0 : ℤ) ≤ ⌊x⌋ := Int.floor_nonneg.mpr h0
    omega
  · have hx : x ≤ (⌈x⌉ : ℝ) := Int.le_ceil x
    exact_mod_cast le_trans h hx

theorem truncR_nonpos {x : ℝ} (h : x ≤ 0) : truncR x ≤ 0 := by
  rw [truncR]
  split
  · next h0 =>
    have hx0 : x = 0 := le_antisymm h h0
    simp [hx0]
  · exact Int.ceil_le.mpr (by exact_mod_cast h)

/-- The loop angles all lie between 180 and 360 degrees. -/
theorem mem_pyRange_bounds {a : ℕ} (h : a ∈ pyRange 180 361 10) : 180 ≤ a ∧ a ≤ 360 := by
  rw [pyRange] at h
  simp only [List.mem_map, List.mem_range] at h
  obtain ⟨i, hi, rfl⟩ := h
  omega

theorem pi_le_radiansOf {a : ℕ} (h : 180 ≤ a) : Real.pi ≤ radiansOf a := by
  rw [radiansOf]
  have ha : (180 : ℝ) ≤ (a : ℝ) := by exact_mod_cast h
  have := mul_le_mul_of_nonneg_right ha Real.pi_pos.le
  linarith

theorem radiansOf_le_two_pi {a : ℕ} (h : a ≤ 360) : radiansOf a ≤ 2 * Real.pi := by
  rw [radiansOf]
  have ha : (a : ℝ) ≤ 360 := by exact_mod_cast h
  have := mul_le_mul_of_nonneg_right ha Real.pi_pos.le
  linarith

/-- The sine of any loop angle is nonpositive: the shackle opens upward. -/
theorem sin_radiansOf_nonpos {a : ℕ} (h1 : 180 ≤ a) (h2 : a ≤ 360) :
    Real.sin (radiansOf a) ≤ 0 := by
  have hθ1 := pi_le_radiansOf h1
  have hθ2 := radiansOf_le_two_pi h2
  have hpi := Real.pi_pos
  have h := Real.sin_nonpos_of_nonnpos_of_neg_pi_le
    (x := radiansOf a - 2 * Real.pi) (by linarith) (by linarith)
  rwa [Real.sin_sub_two_pi] at h

/-- A truncated radial offset at a nonnegative radius never exceeds the
radius in absolute value. -/
theorem truncR_mul_cos_bounds {r : ℤ} (hr : 0 ≤ r) (θ : ℝ) :
    -r ≤ truncR ((r : ℝ) * Real.cos θ) ∧ truncR ((r : ℝ) * Real.cos θ) ≤ r := by
  have hrR : (0 : ℝ) ≤ (r : ℝ) := by exact_mod_cast hr
  have hup : (r : ℝ) * Real.cos θ ≤ (r : ℝ) :=
    mul_le_of_le_one_right hrR (Real.cos_le_one θ)
  have hlo : ((-r : ℤ) : ℝ) ≤ (r : ℝ) * Real.cos θ := by
    have := mul_le_mul_of_nonneg_left (Real.neg_one_le_cos θ) hrR
    push_cast
    linarith
  exact ⟨le_truncR_of_le (by omega) hlo, truncR_le_of_le hr hup⟩

/-- A truncated radial offset at a nonnegative radius and a nonpositive sine
lies between minus the radius and zero. -/
theorem truncR_mul_sin_bounds {r : ℤ} (hr : 0 ≤ r) {θ : ℝ} (hs : Real.sin θ ≤ 0) :
    -r ≤ truncR ((r : ℝ) * Real.sin θ) ∧ truncR ((r : ℝ) * Real.sin θ) ≤ 0 := by
  have hrR : (0 : ℝ) ≤ (r : ℝ) := by exact_mod_cast hr
  have hup : (r : ℝ) * Real.sin θ ≤ 0 := mul_nonpos_of_nonneg_of_nonpos hrR hs
  have hlo : ((-r : ℤ) : ℝ) ≤ (r : ℝ) * Real.sin θ := by
    have := mul_le_mul_of_nonneg_left (Real.neg_one_le_sin θ) hrR
    push_cast
    linarith
  exact ⟨le_truncR_of_le (by omega) hlo, truncR_nonpos hup⟩

theorem shackleRadius_nonneg (size : ℕ) : 0 ≤ shackleRadius size := by
  rw [shackleRadius_eq]
  positivity

/-- Every endpoint coordinate of a shackle stroke lies in the box of side
`2 * shackle_radius` whose top edge is the shackle center row. -/
theorem segmentAt_bounds {size : ℕ} (hr2 : 2 ≤ shackleRadius size) {a : ℕ}
    (h1 : 180 ≤ a) (h2 : a ≤ 360) :
    shackleCenterX size - shackleRadius size ≤ (segmentAt size a).x1 ∧
    (segmentAt size a).x1 ≤ shackleCenterX size + shackleRadius size ∧
    shackleCenterX size - shackleRadius size ≤ (segmentAt size a).x2 ∧
    (segmentAt size a).x2 ≤ shackleCenterX size + shackleRadius size ∧
    shackleCenterY size - shackleRadius size ≤ (segmentAt size a).y1 ∧
    (segmentAt size a).y1 ≤ shackleCenterY size ∧
    shackleCenterY size - shackleRadius size ≤ (segmentAt size a).y2 ∧
    (segmentAt size a).y2 ≤ shackleCenterY size := by
  have hsin := sin_radiansOf_nonpos h1 h2
  have hrOut : (0 : ℤ) ≤ shackleRadius size := shackleRadius_nonneg size
  have hrIn : (0 : ℤ) ≤ innerRadius size := by rw [innerRadius]; omega
  have hx1 := truncR_mul_cos_bounds hrOut (radiansOf a)
  have hx2 := truncR_mul_cos_bounds hrIn (radiansOf a)
  have hy1 := truncR_mul_sin_bounds hrOut hsin
  have hy2 := truncR_mul_sin_bounds hrIn hsin
  have hin : innerRadius size ≤ shackleRadius size := by rw [innerRadius]; omega
  simp only [segmentAt]
  refine ⟨by omega, by omega, by omega, by omega, by omega, by omega, by omega, by omega⟩

/-- The angles named by the spec: 180 to 360 degrees inclusive in steps of
10, nineteen in all. -/
def specAngles : List ℕ :=
  [180, 190, 200, 210, 220, 230, 240, 250, 260, 270, 280, 290, 300, 310, 320, 330, 340, 350, 360]

/-- A shackle stroke exactly as the specification words it: outer endpoint at
the shackle center `(size/2, size/2 - floor(2*scale))` plus the truncated
offset `(radius*cos, radius*sin)` with `radius = floor(4*scale)`, inner
endpoint with `radius - 2` in place of `radius`, and stroke width
`max(1, floor(scale))`. -/
noncomputable def specSegment (size angle : ℕ) : Segment where
  x1 := (size : ℤ) / 2 +
    truncR ((⌊(4 : ℚ) * ((size : ℚ) / 24)⌋ : ℝ) * Real.cos ((angle : ℝ) * Real.pi / 180))
  y1 := ((size : ℤ) / 2 - ⌊(2 : ℚ) * ((size : ℚ) / 24)⌋) +
    truncR ((⌊(4 : ℚ) * ((size : ℚ) / 24)⌋ : ℝ) * Real.sin ((angle : ℝ) * Real.pi / 180))
  x2 := (size : ℤ) / 2 +
    truncR (((⌊(4 : ℚ) * ((size : ℚ) / 24)⌋ - 2 : ℤ) : ℝ) * Real.cos ((angle : ℝ) * Real.pi / 180))
  y2 := ((size : ℤ) / 2 - ⌊(2 : ℚ) * ((size : ℚ) / 24)⌋) +
    truncR (((⌊(4 : ℚ) * ((size : ℚ) / 24)⌋ - 2 : ℤ) : ℝ) * Real.sin ((angle : ℝ) * Real.pi / 180))
  w := max 1 ⌊(size : ℚ) / 24⌋

/-- The stroke the source draws at an angle is the stroke the spec words
describe: truncation agrees with the floor on the nonnegative scale-derived
quantities, and floor division agrees with Euclidean division. -/
theorem segmentAt_eq_spec (size angle : ℕ) : segmentAt size angle = specSegment size angle := by
  have h4 : shackleRadius size = ⌊(4 : ℚ) * ((size : ℚ) / 24)⌋ := by
    rw [shackleRadius, truncQ_of_nonneg (by unfold scaleQ; positivity)]
    rfl
  have h2 : shackleCenterY size = (size : ℤ) / 2 - ⌊(2 : ℚ) * ((size : ℚ) / 24)⌋ := by
    rw [shackleCenterY, lockY_eq, truncQ_of_nonneg (by unfold scaleQ; positivity)]
    rfl
  have hw : strokeW size = max 1 ⌊(size : ℚ) / 24⌋ := by
    rw [strokeW, truncQ_of_nonneg (by unfold scaleQ; positivity)]
    rfl
  have hin : innerRadius size = ⌊(4 : ℚ) * ((size : ℚ) / 24)⌋ - 2 := by
    rw [innerRadius, h4]
  rw [segmentAt, specSegment, shackleCenterX_eq, h4, h2, hw, hin, radiansOf]

/-- The Python loop header `range(180, 361, 10)` yields the spec's angles. -/
theorem pyRange_eq_specAngles : pyRange 180 361 10 = specAngles := by decide

/-- A pixel strictly left or right of the inflated shackle bounding box and
outside the lock-body rectangle keeps the background color. -/
theorem iconCanvas_bg_of_far (raster : LineRaster) (hr : GoodRaster raster) (size : ℕ)
    (x y : ℤ) (hr2 : 2 ≤ shackleRadius size)
    (hrect : ¬(lockX size ≤ x ∧ x ≤ lockX size + lockWidth size ∧
      lockY size ≤ y ∧ y ≤ lockY size + lockHeight size))
    (hfar : x < shackleCenterX size - shackleRadius size - strokeW size ∨
      shackleCenterX size + shackleRadius size + strokeW size < x) :
    iconCanvas raster size x y = bgBlue := by
  have hnone : ∀ seg ∈ shackleSegments size, raster seg x y = false := by
    intro seg hseg
    rcases Bool.eq_false_or_eq_true (raster seg x y) with hb | hb
    swap
    · exact hb
    · exfalso
      obtain ⟨hbx1, hbx2, _, _⟩ := hr seg x y hb
      rw [shackleSegments] at hseg
      obtain ⟨a, ha, rfl⟩ := List.mem_map.mp hseg
      obtain ⟨ha1, ha2⟩ := mem_pyRange_bounds ha
      obtain ⟨b1, b2, b3, b4, _, _, _, _⟩ := segmentAt_bounds hr2 ha1 ha2
      have hwseg : (segmentAt size a).w = strokeW size := rfl
      rw [hwseg] at hbx1 hbx2
      have hmin : shackleCenterX size - shackleRadius size ≤
        min (segmentAt size a).x1 (segmentAt size a).x2 := le_min b1 b3
      have hmax : max (segmentAt size a).x1 (segmentAt size a).x2 ≤
        shackleCenterX size + shackleRadius size := max_le b2 b4
      omega
  rw [iconCanvas, foldl_drawLine_untouched raster _ _ x y hnone]
  simp only [drawRectangle, newCanvas]
  rw [if_neg hrect]

/-- The fixed list of target sizes of the main script. -/
def sizes : List ℕ := [16, 32, 48, 128]

/-- The output path the main loop passes to `create_icon` for a size. -/
def iconPath (size : ℕ) : String := "extension/icons/icon" ++ toString size ++ ".png"

/-- The in-memory image `create_icon` builds: `Image.new('RGBA', (size, size))`
fixes the mode and the pixel dimensions; drawing only changes pixel data. -/
structure PILImage where
  mode : String
  width : ℕ
  height : ℕ
  pixels : Canvas

/-- The image as it stands when `create_icon` reaches `img.save`. -/
noncomputable def iconImage (raster : LineRaster) (size : ℕ) : PILImage where
  mode := "RGBA"
  width := size
  height := size
  pixels := iconCanvas raster size

/-- Modelled from the spec: `img.save(filename, 'PNG')` is imaging-library
code outside this repository; per the spec it writes one decodable PNG file
at `filename` carrying the image's color data, so a write is recorded as the
destination path, the format string, and the image handed over. -/
structure SavedFile where
  path : String
  format : String
  image : PILImage

/-- The file writes of one run of the script, in loop order. -/
noncomputable def mainWrites (raster : LineRaster) : List SavedFile :=
  sizes.map (fun s => { path := iconPath s, format := "PNG", image := iconImage raster s })

/-- An observable event of the main loop: a file save or a printed line. -/
inductive RunEvent where
  | save : String → RunEvent
  | print : String → RunEvent
deriving DecidableEq

/-- The event trace of one run: for each size in order, the save performed by
`create_icon` followed by the progress line, then the completion line. -/
def mainTrace : List RunEvent :=
  (sizes.flatMap fun s =>
    [RunEvent.save (iconPath s), RunEvent.print ("Created icon" ++ toString s ++ ".png")]) ++
  [RunEvent.print "All icons created successfully!"]

/-- The lines a trace writes to standard output, in order. -/
def printedLines (t : List RunEvent) : List String :=
  t.filterMap fun e =>
    match e with
    | RunEvent.save _ => none
    | RunEvent.print line => some line

/-- The ambient process state a run could observe: a clock and an entropy
source.  The source performs no call that reads either. -/
structure ProcessEnv where
  clock : ℕ
  randomness : ℕ
deriving DecidableEq

/-- A PNG encoder turns a pixel buffer of a given size into a byte string.
PIL's encoder is library code; per the spec it embeds no timestamp and no
randomness, so it is any fixed function of the pixel data. -/
def PNGEncoder : Type := ℕ → Canvas → List ℕ

/-- An encoder producing no bytes, used to instantiate encoder-parametric
theorems at a concrete input. -/
def nullEncoder : PNGEncoder := fun _ _ => []

/-- The PNG bytes produced by one invocation of `create_icon`, as a function
of everything an invocation could depend on.  The ambient process state is an
explicit argument precisely so that theorems can state that the output does
not depend on it: the body of `create_icon` never reads it. -/
noncomputable def createIconBytes (encode : PNGEncoder) (raster : LineRaster) (size : ℕ)
    (env : ProcessEnv) : List ℕ :=
  encode size (iconCanvas raster size)

theorem shackleCenterY_eq_div (size : ℕ) :
    shackleCenterY size = (size : ℤ) / 2 - 2 * (size : ℤ) / 24 := by
  rw [shackleCenterY, lockY_eq]
  congr 1
  rw [show (2 : ℚ) = ((2 : ℕ) : ℚ) by norm_num, truncQ_natMul_scale]
  norm_num

theorem strokeW_eq_div (size : ℕ) : strokeW size = max 1 ((size : ℤ) / 24) := by
  rw [strokeW, truncQ_scale_eq]

/-- C1: for every positive size the shackle is drawn as exactly 19 straight
line segments (stroked white in `iconCanvas`), one per angle from 180 to 360
degrees inclusive in steps of 10; each stroke's outer endpoint is the shackle
center `(size/2, lock_y - floor(2*scale))` plus the truncated offset
`(radius*cos(angle), radius*sin(angle))` with `radius = floor(4*scale)`, the
inner endpoint uses `radius - 2` in place of `radius`, and the stroke width
is `max(1, floor(scale))`. -/
theorem shackle_matches_spec (size : ℕ) (hpos : 0 < size) :
    shackleSegments size = specAngles.map (specSegment size) ∧
    (shackleSegments size).length = 19 := by
  have hmap : shackleSegments size = specAngles.map (specSegment size) := by
    rw [shackleSegments, pyRange_eq_specAngles]
    exact List.map_congr_left fun a _ => segmentAt_eq_spec size a
  refine ⟨hmap, ?_⟩
  rw [hmap, List.length_map]
  rfl

theorem shackle_matches_spec_witness :
    0 < 24 ∧ (shackleSegments 24 = specAngles.map (specSegment 24) ∧
      (shackleSegments 24).length = 19) :=
  ⟨by decide, shackle_matches_spec 24 (by decide)⟩

/-- C2: for every positive size, the scale is the exact ratio size/24, the
lock body width and height are the floors of 10*scale and 8*scale, the body
origin is ((size - width)/2, size/2) by integer division, and every pixel of
the rectangle from (lock_x, lock_y) to (lock_x + width, lock_y + height) is
solid white (255, 255, 255, 255) in the rendered canvas. -/
theorem geometry_params_spec (size : ℕ) (hpos : 0 < size) :
    scaleQ size = (size : ℚ) / 24 ∧
    lockWidth size = ⌊(10 : ℚ) * ((size : ℚ) / 24)⌋ ∧
    lockHeight size = ⌊(8 : ℚ) * ((size : ℚ) / 24)⌋ ∧
    lockX size = ((size : ℤ) - lockWidth size) / 2 ∧
    lockY size = (size : ℤ) / 2 ∧
    whiteFill = Color.mk 255 255 255 255 ∧
    (∀ raster : LineRaster, ∀ x y : ℤ,
      lockX size ≤ x → x ≤ lockX size + lockWidth size →
      lockY size ≤ y → y ≤ lockY size + lockHeight size →
      iconCanvas raster size x y = whiteFill) := by
  refine ⟨rfl, ?_, ?_, lockX_eq size, lockY_eq size, rfl, ?_⟩
  · rw [lockWidth, truncQ_of_nonneg (by unfold scaleQ; positivity)]
    rfl
  · rw [lockHeight, truncQ_of_nonneg (by unfold scaleQ; positivity)]
    rfl
  · intro raster x y h1 h2 h3 h4
    rw [iconCanvas]
    apply foldl_drawLine_white
    simp only [drawRectangle]
    rw [if_pos ⟨h1, h2, h3, h4⟩]

theorem geometry_params_spec_witness :
    0 < 24 ∧ iconCanvas noRaster 24 10 15 = whiteFill :=
  ⟨by decide, (geometry_params_spec 24 (by decide)).2.2.2.2.2.2 noRaster 10 15
    (by rw [lockX_eq, lockWidth_eq]; decide)
    (by rw [lockX_eq, lockWidth_eq]; decide)
    (by rw [lockY_eq]; decide)
    (by rw [lockY_eq, lockHeight_eq]; decide)⟩

/-- C3: the renderer is deterministic; two invocations with the same size
agree byte for byte whatever the ambient process state, and the rendered
pixel buffer is a pure function of the size. -/
theorem render_deterministic (encode : PNGEncoder) (raster : LineRaster)
    (size1 size2 : ℕ) (env1 env2 : ProcessEnv) (h : size1 = size2) :
    createIconBytes encode raster size1 env1 = createIconBytes encode raster size2 env2 ∧
    iconCanvas raster size1 = iconCanvas raster size2 := by
  subst h
  exact ⟨rfl, rfl⟩

theorem render_deterministic_witness :
    16 = 16 ∧
    (createIconBytes nullEncoder noRaster 16 ⟨0, 0⟩ = createIconBytes nullEncoder noRaster 16 ⟨1, 1⟩ ∧
      iconCanvas noRaster 16 = iconCanvas noRaster 16) :=
  ⟨rfl, render_deterministic nullEncoder noRaster 16 16 ⟨0, 0⟩ ⟨1, 1⟩ rfl⟩

/-- Corner-pixel argument for one size: the corners avoid the lock-body
rectangle vertically and the inflated shackle bounding box horizontally. -/
theorem corner_bg_aux (raster : LineRaster) (hr : GoodRaster raster) (size : ℕ) (x y : ℤ)
    (hr2 : 2 ≤ shackleRadius size)
    (hy0 : 0 < lockY size)
    (hyh : lockY size + lockHeight size < (size : ℤ) - 1)
    (hx0 : 0 < shackleCenterX size - shackleRadius size - strokeW size)
    (hxs : shackleCenterX size + shackleRadius size + strokeW size < (size : ℤ) - 1)
    (hx : x = 0 ∨ x = (size : ℤ) - 1) (hy : y = 0 ∨ y = (size : ℤ) - 1) :
    iconCanvas raster size x y = bgBlue := by
  apply iconCanvas_bg_of_far raster hr size x y hr2
  · intro h
    obtain ⟨h1, h2, h3, h4⟩ := h
    rcases hy with rfl | rfl
    · omega
    · omega
  · rcases hx with rfl | rfl
    · exact Or.inl (by omega)
    · exact Or.inr (by omega)

/-- C4: for every size in [16, 32, 48, 128] and any rasterizer bounded by the
stroked bounding box, the four corner pixels of the icon keep the background
color (59, 130, 246, 255): neither the lock body rectangle nor any shackle
stroke reaches a corner at these sizes. -/
theorem corner_pixels_bg (raster : LineRaster) (hr : GoodRaster raster) (size : ℕ)
    (hs : size ∈ ([16, 32, 48, 128] : List ℕ)) (x y : ℤ)
    (hx : x = 0 ∨ x = (size : ℤ) - 1) (hy : y = 0 ∨ y = (size : ℤ) - 1) :
    iconCanvas raster size x y = bgBlue := by
  fin_cases hs <;>
    exact corner_bg_aux raster hr _ x y
      (by rw [shackleRadius_eq]; decide)
      (by rw [lockY_eq]; decide)
      (by rw [lockY_eq, lockHeight_eq]; decide)
      (by rw [shackleCenterX_eq, shackleRadius_eq, strokeW_eq_div]; decide)
      (by rw [shackleCenterX_eq, shackleRadius_eq, strokeW_eq_div]; decide)
      hx hy

theorem corner_pixels_bg_witness :
    GoodRaster noRaster ∧ 16 ∈ ([16, 32, 48, 128] : List ℕ) ∧
    ((0 : ℤ) = 0 ∨ (0 : ℤ) = ((16 : ℕ) : ℤ) - 1) ∧
    iconCanvas noRaster 16 0 0 = bgBlue :=
  ⟨noRaster_good, by decide, Or.inl rfl,
    corner_pixels_bg noRaster noRaster_good 16 (by decide) 0 0 (Or.inl rfl) (Or.inl rfl)⟩

/-- C5: for size 24 the lock body has width 10, height 8, origin (7, 12), and
after rendering the pixel (10, 15) is opaque white because it lies inside the
filled lock-body rectangle. -/
theorem size24_lock_body :
    lockWidth 24 = 10 ∧ lockHeight 24 = 8 ∧ lockX 24 = 7 ∧ lockY 24 = 12 ∧
    ∀ raster : LineRaster, iconCanvas raster 24 10 15 = whiteFill := by
  refine ⟨by rw [lockWidth_eq]; decide, by rw [lockHeight_eq]; decide,
    by rw [lockX_eq, lockWidth_eq]; decide, by rw [lockY_eq]; decide, fun raster => ?_⟩
  have hcond : lockX 24 ≤ (10 : ℤ) ∧ (10 : ℤ) ≤ lockX 24 + lockWidth 24 ∧
      lockY 24 ≤ (15 : ℤ) ∧ (15 : ℤ) ≤ lockY 24 + lockHeight 24 :=
    ⟨by rw [lockX_eq, lockWidth_eq]; decide, by rw [lockX_eq, lockWidth_eq]; decide,
      by rw [lockY_eq]; decide, by rw [lockY_eq, lockHeight_eq]; decide⟩
  rw [iconCanvas]
  apply foldl_drawLine_white
  simp only [drawRectangle]
  rw [if_pos hcond]

/-- C7: size 1 crashes nothing: the scale is the exact ratio 1/24, the body
width and height both compute to 0, the inner shackle radius is -2, and every
drawing step of `create_icon` completes, returning a canvas. -/
theorem size_one_no_failure :
    scaleQ 1 = 1 / 24 ∧ lockWidth 1 = 0 ∧ lockHeight 1 = 0 ∧ innerRadius 1 = -2 ∧
    ∀ raster : LineRaster, createIcon raster 1 = Except.ok (iconCanvas raster 1) := by
  refine ⟨?_, by rw [lockWidth_eq]; decide, by rw [lockHeight_eq]; decide,
    by rw [innerRadius, shackleRadius_eq]; decide, fun raster => createIcon_ok raster 1⟩
  rw [scaleQ]
  norm_num

/-- C9: for every positive size every pixel of the rendered canvas is either
the background blue (59, 130, 246, 255) or opaque white (255, 255, 255, 255),
whatever pixels the rasterizer covers. -/
theorem two_color_invariant (raster : LineRaster) (size : ℕ) (hpos : 0 < size) (x y : ℤ) :
    iconCanvas raster size x y = bgBlue ∨ iconCanvas raster size x y = whiteFill := by
  rw [iconCanvas]
  rcases foldl_drawLine_cases raster (shackleSegments size)
    (drawRectangle (lockX size) (lockY size) (lockX size + lockWidth size)
      (lockY size + lockHeight size) whiteFill (newCanvas bgBlue)) x y with h | h
  · rw [h]
    simp only [drawRectangle, newCanvas]
    split
    · exact Or.inr rfl
    · exact Or.inl rfl
  · exact Or.inr h

theorem two_color_invariant_witness :
    0 < 1 ∧ (iconCanvas noRaster 1 0 0 = bgBlue ∨ iconCanvas noRaster 1 0 0 = whiteFill) :=
  ⟨by decide, two_color_invariant noRaster 1 (by decide) 0 0⟩

/-- C10: for every positive size the lock body rectangle lies entirely within
the canvas: 0 ≤ lock_x, lock_x + width ≤ size - 1, lock_y + height ≤ size - 1. -/
theorem lock_body_within_canvas (size : ℕ) (hpos : 0 < size) :
    0 ≤ lockX size ∧ lockX size + lockWidth size ≤ (size : ℤ) - 1 ∧
    lockY size + lockHeight size ≤ (size : ℤ) - 1 := by
  have hw := lockWidth_eq size
  have hh := lockHeight_eq size
  have hx := lockX_eq size
  have hy := lockY_eq size
  have h1 : (1 : ℤ) ≤ (size : ℤ) := by exact_mod_cast hpos
  omega

theorem lock_body_within_canvas_witness :
    0 < 24 ∧ (0 ≤ lockX 24 ∧ lockX 24 + lockWidth 24 ≤ ((24 : ℕ) : ℤ) - 1 ∧
      lockY 24 + lockHeight 24 ≤ ((24 : ℕ) : ℤ) - 1) :=
  ⟨by decide, lock_body_within_canvas 24 (by decide)⟩

/-- C6: one run writes exactly four files, at the four fixed paths in order,
and each written image is the PNG serialization of an RGBA image of pixel
dimensions size by size; the four paths are distinct. -/
theorem run_writes_spec (raster : LineRaster) :
    (mainWrites raster).map
        (fun f => (f.path, f.format, f.image.mode, f.image.width, f.image.height)) =
      [("extension/icons/icon16.png", "PNG", "RGBA", 16, 16),
       ("extension/icons/icon32.png", "PNG", "RGBA", 32, 32),
       ("extension/icons/icon48.png", "PNG", "RGBA", 48, 48),
       ("extension/icons/icon128.png", "PNG", "RGBA", 128, 128)] ∧
    ((mainWrites raster).map (fun f => f.path)).Nodup := by
  constructor
  · rfl
  · have hpaths : (mainWrites raster).map (fun f => f.path) =
        ["extension/icons/icon16.png", "extension/icons/icon32.png",
         "extension/icons/icon48.png", "extension/icons/icon128.png"] := rfl
    rw [hpaths]
    decide

/-- C8: the four sizes are processed strictly sequentially in the order 16,
32, 48, 128, each save followed by its one progress line, then the final
completion line, so standard output carries exactly these five lines in this
order. -/
theorem run_trace_spec :
    mainTrace =
      [RunEvent.save "extension/icons/icon16.png", RunEvent.print "Created icon16.png",
       RunEvent.save "extension/icons/icon32.png", RunEvent.print "Created icon32.png",
       RunEvent.save "extension/icons/icon48.png", RunEvent.print "Created icon48.png",
       RunEvent.save "extension/icons/icon128.png", RunEvent.print "Created icon128.png",
       RunEvent.print "All icons created successfully!"] ∧
    printedLines mainTrace =
      ["Created icon16.png", "Created icon32.png", "Created icon48.png",
       "Created icon128.png", "All icons created successfully!"] :=
  ⟨rfl, rfl⟩
